import Mathlib

/-!
Verification of the asynchronous single-GPU Jacobi relaxation pipeline
(`src/jacobi_single_GPU_ROCm.cpp`).

The development shallowly embeds:
* the device kernel `jacobi_kernel` (lines 71-109): its per-cell stencil
  update, periodic-seam ghost writes, and two-level (block tree + atomic)
  residual reduction, over an arbitrary field in exact arithmetic
  (floating point is modelled by exact arithmetic, per the design note
  that only convergence-tolerance equivalence is required);
* the boundary-setting kernel `initialize_boundaries` (lines 60-69),
  written here as `init_boundaries`;
* the host main loop (lines 208-260) as a sequentialised state machine
  whose per-iteration mirror/accumulator contents follow the total order
  that the marker protocol enforces (that order itself is proved from a
  timed happens-before model of streams and events, `PipeSched` below);
* the configuration check and exit status of `main` (lines 139-149, 288).

Grids are flat `ℕ → α` arrays indexed `iy * nx + ix`, exactly as the
source indexes its device buffers.
-/

namespace JacobiHip

/-! ## The stencil-and-reduce kernel, lines 71-109 -/

section Kernel

variable {α : Type*} [Field α]

/-- Per-cell update computed at line 86-87:
`new_val = 0.25 * (a[iy*nx+ix+1] + a[iy*nx+ix-1] + a[(iy+1)*nx+ix] + a[(iy-1)*nx+ix])`. -/
def jacobi_update (a : ℕ → α) (nx iy ix : ℕ) : α :=
  (1 / 4 : α) * (a (iy * nx + ix + 1) + a (iy * nx + ix - 1) +
    a ((iy + 1) * nx + ix) + a ((iy - 1) * nx + ix))

/-- Aggregate effect of one `jacobi_kernel` launch on the `a_new` array.
Thread coordinates (line 80-81): `iy = blockIdx.y*4 + threadIdx.y + 1`
ranges over `[1, 4*GY]`, `ix = blockIdx.x*32 + threadIdx.x` over
`[0, 32*GX)`; `GX, GY` are the launch grid dimensions (line 206).
A cell of `a_new` receives
* the interior write of line 88 when its own thread passes the guards
  `iy < iy_end` (line 84) and `1 ≤ ix < nx-1` (line 85);
* the ghost write of line 92 (row `iy_end`, from the thread at row
  `iy_start`) or line 96 (row `iy_start - 1`, from the thread at row
  `iy_end - 1`);
* otherwise its previous contents.
The `if`-priority is immaterial for the `iy_start = 1` configuration used
by `main` (line 164), where the three target regions are disjoint. -/
def kernelNext (GX GY : ℕ) (a a_new : ℕ → α) (iy_start iy_end nx : ℕ) : ℕ → α :=
  fun j =>
    let iy := j / nx
    let ix := j % nx
    if 1 ≤ iy ∧ iy ≤ 4 * GY ∧ iy < iy_end ∧ 1 ≤ ix ∧ ix < nx - 1 ∧ ix < 32 * GX then
      jacobi_update a nx iy ix
    else if iy = iy_end ∧ 1 ≤ iy_start ∧ iy_start ≤ 4 * GY ∧ iy_start < iy_end ∧
        1 ≤ ix ∧ ix < nx - 1 ∧ ix < 32 * GX then
      jacobi_update a nx iy_start ix
    else if iy = iy_start - 1 ∧ 1 ≤ iy_end - 1 ∧ iy_end - 1 ≤ 4 * GY ∧
        1 ≤ ix ∧ ix < nx - 1 ∧ ix < 32 * GX then
      jacobi_update a nx (iy_end - 1) ix
    else a_new j

/-- `local_l2_norm` of the thread at `(iy, ix)` (lines 82, 99-100):
`(new_val - a[iy*nx+ix])^2` inside the guards, `0.0` outside. -/
def local_l2 (a : ℕ → α) (iy_end nx iy ix : ℕ) : α :=
  if iy < iy_end ∧ 1 ≤ ix ∧ ix < nx - 1 then
    (jacobi_update a nx iy ix - a (iy * nx + ix)) ^ 2
  else 0

/-- The `BlockReduce(...).Sum` of one 32×4 execution block (line 104),
in exact arithmetic. -/
def blockSum (a : ℕ → α) (iy_end nx bY bX : ℕ) : α :=
  ∑ ty ∈ Finset.range 4, ∑ tx ∈ Finset.range 32,
    local_l2 a iy_end nx (4 * bY + ty + 1) (32 * bX + tx)

/-- Final accumulator contents after one kernel launch: the prior value
plus one `atomicAdd` of each block's tree-reduced sum (line 105). -/
def twoLevelAccum (GX GY : ℕ) (a : ℕ → α) (iy_end nx : ℕ) (l2 : α) : α :=
  l2 + ∑ bY ∈ Finset.range GY, ∑ bX ∈ Finset.range GX, blockSum a iy_end nx bY bX

/-- Direct per-cell sum of squared residuals over the interior cells. -/
def directSum (a : ℕ → α) (iy_end nx : ℕ) : α :=
  ∑ iy ∈ Finset.Ico 1 iy_end, ∑ ix ∈ Finset.Ico 1 (nx - 1),
    (jacobi_update a nx iy ix - a (iy * nx + ix)) ^ 2

end Kernel

/-! ## Boundary initialization and grid evolution (lines 60-69, 164-165, 227, 258) -/

section Grids

variable {α : Type*} [Field α]

/-- Effect of the `initialize_boundaries` kernel (lines 60-69) on one array:
its grid-stride loop visits every row `iy < ny` and stores
`y0 = sin(2*pi*iy/(ny-1))` into columns `0` and `nx-1`.  The row value is
abstracted as `b iy`; `main` instantiates it with the sine below. -/
def init_boundaries (b : ℕ → α) (nx ny : ℕ) (g : ℕ → α) : ℕ → α :=
  fun j => if j / nx < ny ∧ (j % nx = 0 ∨ j % nx = nx - 1) then b (j / nx) else g j

/-- Contents of either grid array after setup: `hipMemset(..., 0, ...)`
(lines 173-174) followed by `initialize_boundaries` (line 177). -/
def initGrid (b : ℕ → α) (nx ny : ℕ) : ℕ → α :=
  init_boundaries b nx ny (fun _ => 0)

/-- One main-loop iteration's effect on the grid pair `(a, a_new)`:
the kernel launch of line 227 overwrites `a_new` from `a`, then
`std::swap(a_new, a)` (line 258) exchanges the roles.  `iy_start = 1`
as set at line 164. -/
def jacobiStep (GX GY iy_end nx : ℕ) (p : (ℕ → α) × (ℕ → α)) : (ℕ → α) × (ℕ → α) :=
  (kernelNext GX GY p.1 p.2 1 iy_end nx, p.1)

/-- Grid pair after `k` iterations, with `iy_end = ny - 1` (line 165). -/
def evolve (b : ℕ → α) (GX GY nx ny k : ℕ) : (ℕ → α) × (ℕ → α) :=
  (jacobiStep GX GY (ny - 1) nx)^[k] (initGrid b nx ny, initGrid b nx ny)

end Grids

/-- The Dirichlet boundary value of row `iy`: `sin(2.0 * pi * iy / (ny - 1))`
with the integer subtraction `ny - 1` of line 63. -/
noncomputable def sinBoundary (ny : ℕ) (iy : ℕ) : ℝ :=
  Real.sin (2 * Real.pi * iy / ((ny - 1 : ℕ) : ℝ))

/-! ## The host main loop (lines 208-260), sequentialised

The device-side effects (kernel accumulation into `d[curr]`, the D2H copy
into `h[curr]`, the async reset of `d[prev]`) are placed at the points of
the iteration where the marker protocol orders them; that total order per
slot is proved from the timed model `PipeSched` below.  The residual sum
produced by the compute of iteration `k` is abstracted as `normsq k`. -/

/-- Slot index of parity `k % 2` (`prev = iter % 2`, `curr = (iter+1) % 2`,
lines 221-222). -/
def pidx (k : ℕ) : Fin 2 := ⟨k % 2, Nat.mod_lt k (by norm_num)⟩

/-- Host-visible state of the main loop. `evals` traces the values
computed at lines 242-243 (one entry per convergence check), `printed`
traces the `printf` of line 247. -/
structure HostState (α : Type*) where
  iter : ℕ
  l2_greater : Bool
  h : Fin 2 → α
  d : Fin 2 → α
  l2 : Fin 2 → α
  evals : List (ℕ × α)
  printed : List (ℕ × α)

section Loop

variable {α : Type*} [LinearOrderedRing α]

/-- The Convergence Monitor: lines 240-255.  Given the copy-stable slot
`prev`, it reads the host mirror, takes `std::sqrt` (line 243), derives
the continue flag `l2_norms[prev] > tol` (line 244), optionally reports
progress (lines 246-248), and stages the slot for reuse by zeroing
`l2_norms[prev]` (251), the host mirror (252) and the device accumulator
(253, async memset whose completion is ordered before the slot's next
compute by the reset-done marker).  Returns the extracted norm, the flag,
and the updated state. -/
def monitor (sqrtF : α → α) (tol : α) (csv : Bool) (prev : Fin 2) (iterN : ℕ)
    (s : HostState α) : α × Bool × HostState α :=
  let v := sqrtF (s.h prev)
  let cont := decide (tol < v)
  (v, cont,
    { iter := s.iter
      l2_greater := cont
      h := Function.update s.h prev 0
      d := Function.update s.d prev 0
      l2 := Function.update s.l2 prev 0
      evals := s.evals ++ [(iterN, v)]
      printed := if ¬csv ∧ iterN % 100 = 0 then s.printed ++ [(iterN, v)] else s.printed })

/-- One iteration of the `while` body (lines 218-259).  The compute
launch (line 227) adds `normsq iter` into slot `curr`'s device
accumulator; when the check condition of line 232 holds, the copy
(lines 233-236) mirrors it to the host and the Monitor runs. -/
def step (sqrtF : α → α) (tol : α) (normsq : ℕ → α) (nccheck : ℕ) (csv : Bool)
    (s : HostState α) : HostState α :=
  let prev := pidx s.iter
  let curr := pidx (s.iter + 1)
  let d1 := Function.update s.d curr (s.d curr + normsq s.iter)
  if s.iter % nccheck = 0 ∨ (¬csv ∧ s.iter % 100 = 0) then
    let s2 : HostState α := { s with d := d1, h := Function.update s.h curr (d1 curr) }
    let m := monitor sqrtF tol csv prev s.iter s2
    { m.2.2 with iter := s.iter + 1 }
  else
    { s with d := d1, iter := s.iter + 1 }

/-- The `while (l2_norm_greater_than_tol && iter < iter_max)` loop
(line 218), run on structural fuel; fuel `iter_max` suffices from the
initial state because `iter` increases by one per pass. -/
def runAux (sqrtF : α → α) (tol : α) (normsq : ℕ → α) (nccheck : ℕ) (csv : Bool)
    (iter_max : ℕ) : ℕ → HostState α → HostState α
  | 0, s => s
  | fuel + 1, s =>
    if s.l2_greater = true ∧ s.iter < iter_max then
      runAux sqrtF tol normsq nccheck csv iter_max fuel (step sqrtF tol normsq nccheck csv s)
    else s

/-- State entering the loop: `iter = 0` (line 208),
`l2_norm_greater_than_tol = true` (line 217), both host mirrors hold the
sentinel `1.0` (line 193), both device accumulators are zero (line 191),
`l2_norms = {0, 0}` (lines 209-211). -/
def initState : HostState α :=
  { iter := 0
    l2_greater := true
    h := fun _ => 1
    d := fun _ => 0
    l2 := fun _ => 0
    evals := []
    printed := [] }

/-- The whole solve loop from the initial state. -/
def runLoop (sqrtF : α → α) (tol : α) (normsq : ℕ → α) (nccheck : ℕ) (csv : Bool)
    (iter_max : ℕ) : HostState α :=
  runAux sqrtF tol normsq nccheck csv iter_max iter_max initState

/-- The value the host reads from the `prev` mirror at iteration `k`:
the setup sentinel `1.0` at `k = 0` (the slot's copy-done marker has
never been recorded), and iteration `k-1`'s residual sum afterwards. -/
def mirror (normsq : ℕ → α) : ℕ → α
  | 0 => 1
  | k + 1 => normsq k

/-- `l2_norm_greater_than_tol` as the loop enters iteration `k`. -/
def flagAt (sqrtF : α → α) (tol : α) (normsq : ℕ → α) : ℕ → Bool
  | 0 => true
  | k + 1 => decide (tol < sqrtF (mirror normsq k))

/-- The trace of norm evaluations after `k` iterations (`nccheck = 1`:
every iteration checks). -/
def evalList (sqrtF : α → α) (normsq : ℕ → α) : ℕ → List (ℕ × α)
  | 0 => []
  | k + 1 => evalList sqrtF normsq k ++ [(k, sqrtF (mirror normsq k))]

/-- The trace of progress reports after `k` iterations: line 246 guards
the `printf` with `!csv && (iter % 100) == 0`. -/
def printList (sqrtF : α → α) (normsq : ℕ → α) (csv : Bool) : ℕ → List (ℕ × α)
  | 0 => []
  | k + 1 => printList sqrtF normsq csv k ++
      if ¬csv ∧ k % 100 = 0 then [(k, sqrtF (mirror normsq k))] else []

/-- Loop invariant at the top of iteration `k` (for `nccheck = 1`). -/
def Inv (sqrtF : α → α) (tol : α) (normsq : ℕ → α) (csv : Bool) (k : ℕ)
    (s : HostState α) : Prop :=
  s.iter = k ∧ s.l2_greater = flagAt sqrtF tol normsq k ∧
    s.h (pidx k) = mirror normsq k ∧ s.d (pidx (k + 1)) = 0 ∧
    s.evals = evalList sqrtF normsq k ∧ s.printed = printList sqrtF normsq csv k

end Loop

/-! ## `main`: configuration check, device actions and exit status
(lines 139-149, 167-196, 218-260, 288) -/

/-- One recorded device-resource action of `main`. -/
inductive DeviceOp where
  | setDevice
  | warmupFree
  | mallocA
  | mallocANew
  | memsetA
  | memsetANew
  | launchInitBoundaries
  | streamCreate
  | eventCreate
  | mallocNorm
  | memsetNorm
  | hostMallocNorm
  | launchJacobi (k : ℕ)
  | copyNorm (k : ℕ)
  | resetNorm (k : ℕ)
deriving DecidableEq

/-- Device actions of the setup phase, in source order (lines 167-196). -/
def setupOps : List DeviceOp :=
  [.setDevice, .warmupFree, .mallocA, .mallocANew, .memsetA, .memsetANew,
   .launchInitBoundaries, .streamCreate, .streamCreate, .streamCreate,
   .eventCreate, .eventCreate, .eventCreate,
   .eventCreate, .mallocNorm, .memsetNorm, .hostMallocNorm,
   .eventCreate, .mallocNorm, .memsetNorm, .hostMallocNorm]

/-- Device actions issued by `n` loop iterations. -/
def loopOps (n : ℕ) : List DeviceOp :=
  ((List.range n).map (fun k => [DeviceOp.launchJacobi k, DeviceOp.copyNorm k,
    DeviceOp.resetNorm k])).flatten

/-- `main` after argument parsing: the `nccheck != 1` guard (lines
146-149) returns `-1` before any device call; otherwise the device is
set up, the loop runs (only `nccheck = 1` reaches it) and `main` returns
`0` (line 288).  Result: (exit status, device actions performed). -/
def main_model {α : Type*} [LinearOrderedRing α] (sqrtF : α → α) (tol : α)
    (normsq : ℕ → α) (iter_max : ℕ) (nccheck : ℤ) (csv : Bool) :
    ℤ × List DeviceOp :=
  if nccheck ≠ 1 then (-1, [])
  else (0, setupOps ++ loopOps (runLoop sqrtF tol normsq 1 csv iter_max).iter)

/-! ## Timed happens-before model of the stream/marker protocol

Each loop iteration `k` enqueues: the compute kernel (line 227, compute
stream, into slot `curr = (k+1) % 2`), the D2H copy (line 234, copy
stream, from slot `curr`), the accumulator reset (line 253, reset
stream, of slot `prev = k % 2`), plus the host-side read of the `prev`
mirror (line 242) and the host zeroing of that mirror (line 252).
`computeS/computeE` etc. are start/completion instants of the device
operations of iteration `k`; `sig*` are the completion instants of the
markers recorded at lines 229, 236 and 255; `tRead k`/`tZeroH k` are the
instants of the host actions of iteration `k`.  `normsq k` is the total
the kernel of iteration `k` atomically adds, `copyVal k` the scalar the
copy of iteration `k` transfers, `readVal k` what the host reads. -/
structure PipeSched (V : Type*) where
  computeS : ℕ → ℕ
  computeE : ℕ → ℕ
  copyS : ℕ → ℕ
  copyE : ℕ → ℕ
  resetS : ℕ → ℕ
  resetE : ℕ → ℕ
  sigCompute : ℕ → ℕ
  sigCopy : ℕ → ℕ
  sigReset : ℕ → ℕ
  tRead : ℕ → ℕ
  tZeroH : ℕ → ℕ
  normsq : ℕ → V
  copyVal : ℕ → V
  readVal : ℕ → V

/-- A schedule is valid when it satisfies the HIP stream/event semantics
for exactly the waits and records the program issues, plus the standard
per-location memory semantics of the two scalars involved.  Setup
(initial `hipMemset` of the accumulators, sentinel `1.0` in the mirrors)
happens at time `0`, before every loop-issued operation. -/
structure ValidSched {V : Type*} (e : PipeSched V) : Prop where
  /-- Loop operations run after setup. -/
  pos_computeS : ∀ k, 0 < e.computeS k
  pos_copyS : ∀ k, 0 < e.copyS k
  pos_resetS : ∀ k, 0 < e.resetS k
  /-- Operations span time. -/
  dur_compute : ∀ k, e.computeS k ≤ e.computeE k
  dur_copy : ∀ k, e.copyS k ≤ e.copyE k
  dur_reset : ∀ k, e.resetS k ≤ e.resetE k
  /-- Operations enqueued on one stream execute in order (compute
  stream: line 227 each iteration; copy stream: line 234; reset stream:
  line 253). -/
  fifo_compute : ∀ k, e.computeE k < e.computeS (k + 1)
  fifo_copy : ∀ k, e.copyE k < e.copyS (k + 1)
  fifo_reset : ∀ k, e.resetE k < e.resetS (k + 1)
  /-- An event recorded on a stream completes no earlier than the work
  enqueued before it on that stream (lines 229, 236, 255). -/
  rec_compute : ∀ k, e.computeE k ≤ e.sigCompute k
  rec_copy : ∀ k, e.copyE k ≤ e.sigCopy k
  rec_reset : ∀ k, e.resetE k ≤ e.sigReset k
  /-- Line 225: the compute stream of iteration `k+1` waits on
  `reset_l2_norm_done[curr]`, last recorded at iteration `k` (same slot
  parity: `(k+2) % 2 = k % 2`); at iteration `0` the event was never
  recorded and the wait is a no-op. -/
  wait_reset : ∀ k, e.sigReset k < e.computeS (k + 1)
  /-- Line 233: the copy stream waits on `compute_done`, recorded at
  line 229 of the same iteration. -/
  wait_compute : ∀ k, e.sigCompute k < e.copyS k
  /-- Line 240: the host blocks on `l2_norm_bufs[prev].copy_done`, last
  recorded at iteration `k` (slot `(k+1) % 2`), before the read of
  iteration `k+1`; at iteration `0` the event was never recorded. -/
  sync_copy : ∀ k, e.sigCopy k < e.tRead (k + 1)
  /-- Host program order within an iteration: read (242) before the
  mirror zeroing (252). -/
  host_read_zero : ∀ k, e.tRead k < e.tZeroH k
  /-- The async reset is enqueued at line 253, after line 252, and
  executes after its enqueue. -/
  host_zero_reset : ∀ k, e.tZeroH k < e.resetS k
  /-- The next iteration's kernel is enqueued (line 227) after the host
  finished line 252 of this iteration, and executes after its enqueue. -/
  host_zero_compute : ∀ k, e.tZeroH k < e.computeS (k + 1)
  /-- Host program order across iterations. -/
  host_order : ∀ k, e.tZeroH k < e.tRead (k + 1)
  /-- Per-location semantics of mirror slot `k % 2`: the read at
  iteration `k` returns the value of the latest prior write.  The writes
  to that mirror are the copies of iterations `j` with `(j+1) % 2 = k % 2`
  (landing at `copyE j`), the host zeroings of iterations `i` with
  `i % 2 = k % 2` (at `tZeroH i`), and the sentinel at time `0`.  If the
  copy of iteration `j` lands before the read and every other write lands
  before that copy or after the read, the read returns that copy's value. -/
  read_last_write : ∀ k j, (j + 1) % 2 = k % 2 → e.copyE j < e.tRead k →
    (∀ i, (i + 1) % 2 = k % 2 → i ≠ j → e.copyE i < e.copyE j ∨ e.tRead k < e.copyE i) →
    (∀ i, i % 2 = k % 2 → e.tZeroH i < e.copyE j ∨ e.tRead k < e.tZeroH i) →
    e.readVal k = e.copyVal j
  /-- Per-location semantics of accumulator slot `(c+1) % 2`: the slot is
  zero at time `0` (setup memset, line 191), the kernel of iteration `m`
  (writing that slot when `(m+1) % 2 = (c+1) % 2`) atomically adds
  `normsq m`, and a reset of iteration `r` (when `r % 2 = (c+1) % 2`)
  zeroes it.  If the compute of iteration `m` finishes before the copy of
  iteration `c` starts, every other compute into the slot is either
  erased by a reset completing before `m` starts or begins after the copy
  ends, and every reset either completes before `m` starts or begins
  after the copy ends, then the copy transfers exactly `normsq m`. -/
  copy_accum : ∀ c m, (m + 1) % 2 = (c + 1) % 2 → e.computeE m < e.copyS c →
    (∀ i, (i + 1) % 2 = (c + 1) % 2 → i ≠ m →
      (∃ r, r % 2 = (c + 1) % 2 ∧ e.computeE i < e.resetS r ∧ e.resetE r < e.computeS m) ∨
        e.copyE c < e.computeS i) →
    (∀ r, r % 2 = (c + 1) % 2 → e.resetE r < e.computeS m ∨ e.copyE c < e.resetS r) →
    e.copyVal c = e.normsq m

/-- A concrete valid schedule: iterations laid out one after another. -/
def wSched : PipeSched ℕ :=
  { computeS := fun k => 10 * k + 1
    computeE := fun k => 10 * k + 2
    copyS := fun k => 10 * k + 3
    copyE := fun k => 10 * k + 4
    resetS := fun k => 10 * k + 7
    resetE := fun k => 10 * k + 8
    sigCompute := fun k => 10 * k + 2
    sigCopy := fun k => 10 * k + 4
    sigReset := fun k => 10 * k + 8
    tRead := fun k => 10 * k + 5
    tZeroH := fun k => 10 * k + 6
    normsq := fun _ => 0
    copyVal := fun _ => 0
    readVal := fun _ => 0 }

/-- The Dirichlet boundary columns of a grid hold the fixed row values
`b iy` for every row `iy < ny`. -/
def BoundaryHolds {α : Type*} (b : ℕ → α) (nx ny : ℕ) (g : ℕ → α) : Prop :=
  ∀ iy, iy < ny → g (iy * nx) = b iy ∧ g (iy * nx + (nx - 1)) = b iy

/-! ## Index decomposition helpers -/

theorem idx_div {nx iy ix : ℕ} (hix : ix < nx) : (iy * nx + ix) / nx = iy := by
  have hnx : 0 < nx := lt_of_le_of_lt (Nat.zero_le ix) hix
  rw [add_comm, mul_comm, Nat.add_mul_div_left ix iy hnx, Nat.div_eq_of_lt hix, Nat.zero_add]

theorem idx_mod {nx iy ix : ℕ} (hix : ix < nx) : (iy * nx + ix) % nx = ix := by
  rw [add_comm, mul_comm, Nat.add_mul_mod_self_left]
  exact Nat.mod_eq_of_lt hix

/-- Collapsing a block/thread double sum into a flat range: reindexing
`(b, t) ↦ T*b + t`. -/
theorem sum_range_mul {M : Type*} [AddCommMonoid M] (B T : ℕ) (f : ℕ → M) :
    ∑ b ∈ Finset.range B, ∑ t ∈ Finset.range T, f (T * b + t) =
      ∑ m ∈ Finset.range (B * T), f m := by
  induction B with
  | zero => simp
  | succ B ih =>
    rw [Finset.sum_range_succ, ih, Nat.succ_mul]
    have h2 : ∑ i ∈ Finset.Ico (B * T) (B * T + T), f i =
        ∑ t ∈ Finset.range T, f (T * B + t) := by
      rw [Finset.sum_Ico_eq_sum_range]
      simp only [Nat.add_sub_cancel_left]
      exact Finset.sum_congr rfl (fun t _ => by rw [mul_comm])
    rw [← h2, Finset.range_eq_Ico,
      Finset.sum_Ico_consecutive f (Nat.zero_le (B * T)) (Nat.le_add_right (B * T) T)]

/-! ## Happens-before consequences of the marker protocol -/

section SchedFacts

variable {V : Type*} {e : PipeSched V}

theorem computeS_mono (he : ValidSched e) : StrictMono e.computeS :=
  strictMono_nat_of_lt_succ fun k => lt_of_le_of_lt (he.dur_compute k) (he.fifo_compute k)

theorem copyS_mono (he : ValidSched e) : StrictMono e.copyS :=
  strictMono_nat_of_lt_succ fun k => lt_of_le_of_lt (he.dur_copy k) (he.fifo_copy k)

theorem copyE_mono (he : ValidSched e) : StrictMono e.copyE :=
  strictMono_nat_of_lt_succ fun k => lt_of_lt_of_le (he.fifo_copy k) (he.dur_copy (k + 1))

theorem resetS_mono (he : ValidSched e) : StrictMono e.resetS :=
  strictMono_nat_of_lt_succ fun k => lt_of_le_of_lt (he.dur_reset k) (he.fifo_reset k)

theorem tZeroH_mono (he : ValidSched e) : StrictMono e.tZeroH :=
  strictMono_nat_of_lt_succ fun k => (he.host_order k).trans (he.host_read_zero (k + 1))

/-- The copy of iteration `k` lands before the host read that waits on
its marker (line 240) at iteration `k+1`. -/
theorem copyE_lt_tRead (he : ValidSched e) (k : ℕ) : e.copyE k < e.tRead (k + 1) :=
  lt_of_le_of_lt (he.rec_copy k) (he.sync_copy k)

/-- The compute of iteration `k` finishes before its copy starts
(cross-stream wait on `compute_done`, line 233). -/
theorem computeE_lt_copyS (he : ValidSched e) (k : ℕ) : e.computeE k < e.copyS k :=
  lt_of_le_of_lt (he.rec_compute k) (he.wait_compute k)

/-- The reset of iteration `k` finishes before the compute of iteration
`k+1` (same slot) starts (cross-stream wait on `reset_l2_norm_done`,
line 225). -/
theorem resetE_lt_computeS (he : ValidSched e) (k : ℕ) :
    e.resetE k < e.computeS (k + 1) :=
  lt_of_le_of_lt (he.rec_reset k) (he.wait_reset k)

theorem tRead_lt_computeS (he : ValidSched e) (k : ℕ) :
    e.tRead k < e.computeS (k + 1) :=
  (he.host_read_zero k).trans (he.host_zero_compute k)

theorem tRead_lt_copyS (he : ValidSched e) (k : ℕ) : e.tRead k < e.copyS (k + 1) :=
  lt_of_lt_of_le (tRead_lt_computeS he k)
    (le_trans (he.dur_compute (k + 1))
      (le_trans (he.rec_compute (k + 1)) (le_of_lt (he.wait_compute (k + 1)))))

theorem computeE_lt_resetS (he : ValidSched e) (k : ℕ) :
    e.computeE k < e.resetS (k + 1) :=
  calc e.computeE k < e.copyS k := computeE_lt_copyS he k
    _ ≤ e.copyE k := he.dur_copy k
    _ < e.tRead (k + 1) := copyE_lt_tRead he k
    _ < e.tZeroH (k + 1) := he.host_read_zero (k + 1)
    _ < e.resetS (k + 1) := he.host_zero_reset (k + 1)

theorem tZeroH_lt_copyE (he : ValidSched e) (k : ℕ) : e.tZeroH k < e.copyE (k + 1) :=
  calc e.tZeroH k < e.computeS (k + 1) := he.host_zero_compute k
    _ ≤ e.computeE (k + 1) := he.dur_compute (k + 1)
    _ < e.copyS (k + 1) := computeE_lt_copyS he (k + 1)
    _ ≤ e.copyE (k + 1) := he.dur_copy (k + 1)

theorem copyE_lt_resetS (he : ValidSched e) (k : ℕ) : e.copyE k < e.resetS (k + 1) :=
  calc e.copyE k < e.tRead (k + 1) := copyE_lt_tRead he k
    _ < e.tZeroH (k + 1) := he.host_read_zero (k + 1)
    _ < e.resetS (k + 1) := he.host_zero_reset (k + 1)

end SchedFacts

/-- C1: in every valid schedule and every iteration `k ≥ 1`, the marker
protocol enforces: (a) the reset of slot `(k+1) % 2` issued at iteration
`k-1` completes (and its marker fires) before the compute of iteration
`k` — the next writer of that slot — starts; (b) the compute of
iteration `k` completes before its copy reads the slot; (c) the copy of
iteration `k-1` completes before the host reads the mirror at iteration
`k` and before the reset of iteration `k` overwrites the slot;
moreover every operation of iteration `k+1` that touches slot `k % 2`
(its compute, its copy) starts only after the read of iteration `k`;
consequently the value read from slot `k % 2` at iteration `k` is
exactly the residual total produced by the compute launched at iteration
`k-1`, never iteration `k+1`'s in-flight write. -/
theorem pipeline_marker_protocol {V : Type*} (e : PipeSched V) (he : ValidSched e)
    (k : ℕ) (hk : 1 ≤ k) :
    e.resetE (k - 1) < e.computeS k ∧
    e.sigReset (k - 1) < e.computeS k ∧
    e.computeE k < e.copyS k ∧
    e.copyE (k - 1) < e.tRead k ∧
    e.copyE (k - 1) < e.resetS k ∧
    e.tRead k < e.computeS (k + 1) ∧
    e.tRead k < e.copyS (k + 1) ∧
    e.readVal k = e.normsq (k - 1) := by
  obtain ⟨k, rfl⟩ : ∃ m, k = m + 1 := ⟨k - 1, by omega⟩
  simp only [Nat.add_sub_cancel]
  refine ⟨resetE_lt_computeS he k, he.wait_reset k, computeE_lt_copyS he (k + 1),
    copyE_lt_tRead he k, copyE_lt_resetS he k, tRead_lt_computeS he (k + 1),
    tRead_lt_copyS he (k + 1), ?_⟩
  have h1 : e.readVal (k + 1) = e.copyVal k := by
    apply he.read_last_write (k + 1) k (by omega) (copyE_lt_tRead he k)
    · intro i hpar hne
      rcases lt_or_gt_of_ne hne with hlt | hgt
      · exact Or.inl (copyE_mono he hlt)
      · refine Or.inr ?_
        have hik : k + 2 ≤ i := by omega
        calc e.tRead (k + 1) < e.copyS (k + 2) := tRead_lt_copyS he (k + 1)
          _ ≤ e.copyS i := (copyS_mono he).monotone hik
          _ ≤ e.copyE i := he.dur_copy i
    · intro i hpar
      rcases le_or_lt i k with hle | hgt
      · have hik : i + 1 ≤ k := by omega
        exact Or.inl (lt_of_lt_of_le (tZeroH_lt_copyE he i) ((copyE_mono he).monotone hik))
      · exact Or.inr (lt_of_lt_of_le (he.host_read_zero (k + 1)) ((tZeroH_mono he).monotone hgt))
  have h2 : e.copyVal k = e.normsq k := by
    apply he.copy_accum k k rfl (computeE_lt_copyS he k)
    · intro i hpar hne
      rcases lt_or_gt_of_ne hne with hlt | hgt
      · refine Or.inl ⟨i + 1, by omega, computeE_lt_resetS he i, ?_⟩
        have hik : i + 2 ≤ k := by omega
        calc e.resetE (i + 1) < e.computeS (i + 2) := resetE_lt_computeS he (i + 1)
          _ ≤ e.computeS k := (computeS_mono he).monotone hik
      · refine Or.inr ?_
        calc e.copyE k < e.tRead (k + 1) := copyE_lt_tRead he k
          _ < e.computeS (k + 2) := tRead_lt_computeS he (k + 1)
          _ ≤ e.computeS i := (computeS_mono he).monotone (by omega)
    · intro r hpar
      rcases le_or_lt r k with hle | hgt
      · refine Or.inl ?_
        have hrk : r + 1 ≤ k := by omega
        exact lt_of_lt_of_le (resetE_lt_computeS he r) ((computeS_mono he).monotone hrk)
      · exact Or.inr (lt_of_lt_of_le (copyE_lt_resetS he k) ((resetS_mono he).monotone hgt))
  rw [h1, h2]

theorem wSched_valid : ValidSched wSched := by
  constructor <;> first
    | (intro k; simp only [wSched]; omega)
    | (intros; rfl)

/-- Witness for C1: the sequential layout `wSched` is a valid schedule,
and at iteration `1` the protocol yields the stated orderings and the
value identity. -/
theorem pipeline_marker_protocol_witness :
    wSched.copyE 0 < wSched.tRead 1 ∧ wSched.readVal 1 = wSched.normsq 0 :=
  ⟨(pipeline_marker_protocol wSched wSched_valid 1 (by norm_num)).2.2.2.1,
   (pipeline_marker_protocol wSched wSched_valid 1 (by norm_num)).2.2.2.2.2.2.2⟩

/-! ## Kernel functional correctness -/

/-- C2: for every interior cell (`1 ≤ ix ≤ nx-2`, `iy_start ≤ iy < iy_end`
with `iy_start = 1` as `main` passes it), one kernel invocation writes
`next[iy,ix] = 0.25 * (cur[iy,ix+1] + cur[iy,ix-1] + cur[iy+1,ix] +
cur[iy-1,ix])`, reading only the previous iterate `a`; and every cell
outside the interior predicate (and outside the two seam ghost rows,
which the separate duplication rule of C3 writes) keeps its previous
value. -/
theorem jacobi_kernel_interior_update {α : Type*} [Field α]
    (GX GY : ℕ) (a a_new : ℕ → α) (iy_end nx : ℕ) :
    (∀ iy ix, 1 ≤ iy → iy < iy_end → 1 ≤ ix → ix ≤ nx - 2 → 2 ≤ nx →
      iy ≤ 4 * GY → ix < 32 * GX →
      kernelNext GX GY a a_new 1 iy_end nx (iy * nx + ix) = jacobi_update a nx iy ix) ∧
    (∀ j, ¬(1 ≤ j / nx ∧ j / nx < iy_end ∧ 1 ≤ j % nx ∧ j % nx ≤ nx - 2) →
      j / nx ≠ iy_end → j / nx ≠ 0 →
      kernelNext GX GY a a_new 1 iy_end nx j = a_new j) := by
  constructor
  · intro iy ix h1 h2 h3 h4 h5 h6 h7
    have hix : ix < nx := by omega
    simp only [kernelNext, idx_div hix, idx_mod hix, true_and, and_true]
    split_ifs with hA hB hC <;> first | rfl | (exfalso; omega)
  · intro j hni hg1 hg2
    simp only [kernelNext]
    set p := j / nx with hp
    set q := j % nx with hq
    split_ifs with hA hB hC <;> first | rfl | (exfalso; omega)

/-- Witness for C2 on a concrete 4-column grid: cell `(1,1)` receives the
four-neighbour average, and index `4` (row 1, boundary column 0) is
untouched. -/
theorem jacobi_kernel_interior_update_witness :
    kernelNext 1 1 (fun j => (j : ℚ)) (fun _ => 100) 1 3 4 (1 * 4 + 1) =
        jacobi_update (fun j => (j : ℚ)) 4 1 1 ∧
    kernelNext 1 1 (fun j => (j : ℚ)) (fun _ => 100) 1 3 4 4 = 100 :=
  ⟨(jacobi_kernel_interior_update 1 1 (fun j => (j : ℚ)) (fun _ => 100) 3 4).1 1 1
      (by norm_num) (by norm_num) (by norm_num) (by norm_num) (by norm_num)
      (by norm_num) (by norm_num),
   (jacobi_kernel_interior_update 1 1 (fun j => (j : ℚ)) (fun _ => 100) 3 4).2 4
      (by decide) (by decide) (by decide)⟩

/-- C3: with `iy_start = 1`, for every interior column `ix`, the value
computed at row `iy_start` is also written into row `iy_end` of `next`,
and the value computed at row `iy_end - 1` is also written into row
`iy_start - 1 = 0`; hence after the kernel the two ghost rows of `next`
equal their periodic interior counterparts. -/
theorem jacobi_kernel_seam_rows {α : Type*} [Field α]
    (GX GY : ℕ) (a a_new : ℕ → α) (iy_end nx ix : ℕ)
    (hend : 1 < iy_end) (hGY1 : 1 ≤ 4 * GY) (hGY2 : iy_end - 1 ≤ 4 * GY)
    (hix1 : 1 ≤ ix) (hix2 : ix ≤ nx - 2) (hnx : 2 ≤ nx) (hGX : ix < 32 * GX) :
    kernelNext GX GY a a_new 1 iy_end nx (iy_end * nx + ix) =
      kernelNext GX GY a a_new 1 iy_end nx (1 * nx + ix) ∧
    kernelNext GX GY a a_new 1 iy_end nx (0 * nx + ix) =
      kernelNext GX GY a a_new 1 iy_end nx ((iy_end - 1) * nx + ix) := by
  have hix : ix < nx := by omega
  have e1 : kernelNext GX GY a a_new 1 iy_end nx (iy_end * nx + ix) =
      jacobi_update a nx 1 ix := by
    simp only [kernelNext, idx_div hix, idx_mod hix, true_and, and_true]
    split_ifs with hA hB hC <;> first | rfl | (exfalso; omega)
  have e2 : kernelNext GX GY a a_new 1 iy_end nx (1 * nx + ix) =
      jacobi_update a nx 1 ix := by
    simp only [kernelNext, idx_div hix, idx_mod hix, true_and, and_true]
    split_ifs with hA hB hC <;> first | rfl | (exfalso; omega)
  have e3 : kernelNext GX GY a a_new 1 iy_end nx (0 * nx + ix) =
      jacobi_update a nx (iy_end - 1) ix := by
    simp only [kernelNext, idx_div hix, idx_mod hix, true_and, and_true]
    split_ifs with hA hB hC <;> first | rfl | (exfalso; omega)
  have e4 : kernelNext GX GY a a_new 1 iy_end nx ((iy_end - 1) * nx + ix) =
      jacobi_update a nx (iy_end - 1) ix := by
    simp only [kernelNext, idx_div hix, idx_mod hix, true_and, and_true]
    split_ifs with hA hB hC <;> first | rfl | (exfalso; omega)
  exact ⟨e1.trans e2.symm, e3.trans e4.symm⟩

/-- Witness for C3 on a concrete 4×4 configuration. -/
theorem jacobi_kernel_seam_rows_witness :
    kernelNext 1 1 (fun j => (j : ℚ)) (fun _ => 100) 1 3 4 (3 * 4 + 2) =
      kernelNext 1 1 (fun j => (j : ℚ)) (fun _ => 100) 1 3 4 (1 * 4 + 2) ∧
    kernelNext 1 1 (fun j => (j : ℚ)) (fun _ => 100) 1 3 4 (0 * 4 + 2) =
      kernelNext 1 1 (fun j => (j : ℚ)) (fun _ => 100) 1 3 4 ((3 - 1) * 4 + 2) :=
  jacobi_kernel_seam_rows 1 1 (fun j => (j : ℚ)) (fun _ => 100) 3 4 2
    (by norm_num) (by norm_num) (by norm_num) (by norm_num) (by norm_num)
    (by norm_num) (by norm_num)

theorem sum_shift_one {M : Type*} [AddCommMonoid M] (n : ℕ) (g : ℕ → M) :
    ∑ m ∈ Finset.range n, g (m + 1) = ∑ iy ∈ Finset.Ico 1 (n + 1), g iy := by
  rw [Finset.sum_Ico_eq_sum_range]
  simp only [Nat.add_sub_cancel]
  exact Finset.sum_congr rfl fun m _ => by rw [Nat.add_comm]

/-- C4: one kernel invocation adds to the accumulator slot the two-level
reduction (a tree-reduced sum per 32×4 block, one `atomicAdd` per
block), and over exact arithmetic that total equals the direct per-cell
sum of `(next - cur)^2` over the interior cells; threads outside the
interior contribute zero.  The hypotheses say the launch grid covers the
interior, which `main`'s `dim_grid` (line 206) guarantees. -/
theorem jacobi_kernel_reduction_eq_direct {α : Type*} [Field α]
    (GX GY iy_end nx : ℕ) (a : ℕ → α) (l2 : α)
    (hrow : iy_end ≤ 4 * GY + 1) (hcol : nx - 1 ≤ 32 * GX) :
    twoLevelAccum GX GY a iy_end nx l2 = l2 + directSum a iy_end nx := by
  unfold twoLevelAccum directSum
  congr 1
  calc
    ∑ bY ∈ Finset.range GY, ∑ bX ∈ Finset.range GX, blockSum a iy_end nx bY bX
        = ∑ bY ∈ Finset.range GY, ∑ ty ∈ Finset.range 4, ∑ bX ∈ Finset.range GX,
            ∑ tx ∈ Finset.range 32, local_l2 a iy_end nx (4 * bY + ty + 1) (32 * bX + tx) := by
          refine Finset.sum_congr rfl fun bY _ => ?_
          simp only [blockSum]
          exact Finset.sum_comm
    _ = ∑ m ∈ Finset.range (GY * 4), ∑ bX ∈ Finset.range GX,
          ∑ tx ∈ Finset.range 32, local_l2 a iy_end nx (m + 1) (32 * bX + tx) :=
        sum_range_mul GY 4 (fun m => ∑ bX ∈ Finset.range GX,
          ∑ tx ∈ Finset.range 32, local_l2 a iy_end nx (m + 1) (32 * bX + tx))
    _ = ∑ m ∈ Finset.range (GY * 4), ∑ n ∈ Finset.range (GX * 32),
          local_l2 a iy_end nx (m + 1) n :=
        Finset.sum_congr rfl fun m _ =>
          sum_range_mul GX 32 (fun n => local_l2 a iy_end nx (m + 1) n)
    _ = ∑ iy ∈ Finset.Ico 1 (GY * 4 + 1), ∑ n ∈ Finset.range (GX * 32),
          local_l2 a iy_end nx iy n :=
        sum_shift_one (GY * 4) (fun iy => ∑ n ∈ Finset.range (GX * 32),
          local_l2 a iy_end nx iy n)
    _ = ∑ iy ∈ Finset.Ico 1 iy_end, ∑ n ∈ Finset.range (GX * 32),
          local_l2 a iy_end nx iy n := by
        symm
        apply Finset.sum_subset
        · intro x hx
          simp only [Finset.mem_Ico] at hx ⊢
          omega
        · intro x hx1 hx2
          apply Finset.sum_eq_zero
          intro n _
          simp only [Finset.mem_Ico] at hx1 hx2
          simp only [local_l2]
          rw [if_neg (by omega)]
    _ = ∑ iy ∈ Finset.Ico 1 iy_end, ∑ ix ∈ Finset.Ico 1 (nx - 1),
          local_l2 a iy_end nx iy ix := by
        refine Finset.sum_congr rfl fun iy hiy => ?_
        rw [Finset.range_eq_Ico]
        symm
        apply Finset.sum_subset
        · intro x hx
          simp only [Finset.mem_Ico] at hx ⊢
          omega
        · intro x hx1 hx2
          simp only [Finset.mem_Ico] at hx1 hx2
          simp only [local_l2]
          rw [if_neg (by omega)]
    _ = ∑ iy ∈ Finset.Ico 1 iy_end, ∑ ix ∈ Finset.Ico 1 (nx - 1),
          (jacobi_update a nx iy ix - a (iy * nx + ix)) ^ 2 := by
        refine Finset.sum_congr rfl fun iy hiy => Finset.sum_congr rfl fun ix hix => ?_
        simp only [Finset.mem_Ico] at hiy hix
        simp only [local_l2]
        exact if_pos ⟨hiy.2, hix.1, hix.2⟩

/-- Witness for C4 on a concrete 3-column, one-block configuration. -/
theorem jacobi_kernel_reduction_eq_direct_witness :
    (2 : ℕ) ≤ 4 * 1 + 1 ∧
    twoLevelAccum 1 1 (fun _ => (0 : ℚ)) 2 3 5 = 5 + directSum (fun _ => (0 : ℚ)) 2 3 :=
  ⟨by norm_num,
   jacobi_kernel_reduction_eq_direct 1 1 2 3 (fun _ => (0 : ℚ)) 5 (by norm_num) (by norm_num)⟩

/-! ## Boundary-column preservation -/

theorem kernelNext_boundary_col {α : Type*} [Field α]
    (GX GY : ℕ) (a a_new : ℕ → α) (iy_start iy_end nx j : ℕ)
    (hj : j % nx = 0 ∨ j % nx = nx - 1) (hnx : 2 ≤ nx) :
    kernelNext GX GY a a_new iy_start iy_end nx j = a_new j := by
  simp only [kernelNext]
  set p := j / nx with hp
  set q := j % nx with hq
  split_ifs with hA hB hC <;> first | rfl | (exfalso; omega)

theorem boundary_initGrid {α : Type*} [Field α] (b : ℕ → α) (nx ny : ℕ)
    (hnx : 2 ≤ nx) : BoundaryHolds b nx ny (initGrid b nx ny) := by
  intro iy hiy
  have hd0 : iy * nx / nx = iy := by
    have h := @idx_div nx iy 0 (by omega)
    rwa [Nat.add_zero] at h
  have hm0 : iy * nx % nx = 0 := by
    have h := @idx_mod nx iy 0 (by omega)
    rwa [Nat.add_zero] at h
  have hd1 : (iy * nx + (nx - 1)) / nx = iy := @idx_div nx iy (nx - 1) (by omega)
  have hm1 : (iy * nx + (nx - 1)) % nx = nx - 1 := @idx_mod nx iy (nx - 1) (by omega)
  constructor
  · simp only [initGrid, init_boundaries, hd0, hm0]
    rw [if_pos ⟨hiy, Or.inl trivial⟩]
  · simp only [initGrid, init_boundaries, hd1, hm1]
    rw [if_pos ⟨hiy, Or.inr trivial⟩]

theorem kernelNext_boundary {α : Type*} [Field α] (GX GY : ℕ) (a a_new : ℕ → α)
    (iy_start iy_end nx ny : ℕ) (b : ℕ → α) (hnx : 2 ≤ nx)
    (hb : BoundaryHolds b nx ny a_new) :
    BoundaryHolds b nx ny (kernelNext GX GY a a_new iy_start iy_end nx) := by
  intro iy hiy
  have hm0 : iy * nx % nx = 0 := by
    have h := @idx_mod nx iy 0 (by omega)
    rwa [Nat.add_zero] at h
  have hm1 : (iy * nx + (nx - 1)) % nx = nx - 1 := @idx_mod nx iy (nx - 1) (by omega)
  constructor
  · rw [kernelNext_boundary_col GX GY a a_new iy_start iy_end nx (iy * nx)
      (Or.inl hm0) hnx]
    exact (hb iy hiy).1
  · rw [kernelNext_boundary_col GX GY a a_new iy_start iy_end nx (iy * nx + (nx - 1))
      (Or.inr hm1) hnx]
    exact (hb iy hiy).2

theorem evolve_boundary {α : Type*} [Field α] (b : ℕ → α) (GX GY nx ny : ℕ)
    (hnx : 2 ≤ nx) (k : ℕ) :
    BoundaryHolds b nx ny (evolve b GX GY nx ny k).1 ∧
      BoundaryHolds b nx ny (evolve b GX GY nx ny k).2 := by
  induction k with
  | zero =>
    simp only [evolve, Function.iterate_zero, id_eq]
    exact ⟨boundary_initGrid b nx ny hnx, boundary_initGrid b nx ny hnx⟩
  | succ k ih =>
    simp only [evolve, Function.iterate_succ_apply'] at ih ⊢
    refine ⟨?_, ih.1⟩
    exact kernelNext_boundary GX GY _ _ 1 (ny - 1) nx ny b hnx ih.2

/-- C5: for every row `iy < ny` and every iteration count, both grid
arrays hold `sin(2*pi*iy/(ny-1))` in columns `0` and `nx-1`: the
boundary columns are written once by `initialize_boundaries` and no
later stencil update, seam duplication or swap touches them. -/
theorem jacobi_boundary_invariant (nx ny GX GY k iy : ℕ)
    (hnx : 2 ≤ nx) (hiy : iy < ny) :
    ((evolve (sinBoundary ny) GX GY nx ny k).1 (iy * nx) =
        Real.sin (2 * Real.pi * iy / ((ny - 1 : ℕ) : ℝ)) ∧
      (evolve (sinBoundary ny) GX GY nx ny k).1 (iy * nx + (nx - 1)) =
        Real.sin (2 * Real.pi * iy / ((ny - 1 : ℕ) : ℝ))) ∧
    ((evolve (sinBoundary ny) GX GY nx ny k).2 (iy * nx) =
        Real.sin (2 * Real.pi * iy / ((ny - 1 : ℕ) : ℝ)) ∧
      (evolve (sinBoundary ny) GX GY nx ny k).2 (iy * nx + (nx - 1)) =
        Real.sin (2 * Real.pi * iy / ((ny - 1 : ℕ) : ℝ))) := by
  have h := evolve_boundary (sinBoundary ny) GX GY nx ny hnx k
  exact ⟨h.1 iy hiy, h.2 iy hiy⟩

/-- Witness for C5 on a 2×2 grid after one iteration. -/
theorem jacobi_boundary_invariant_witness :
    (2 : ℕ) ≤ 2 ∧
    (evolve (sinBoundary 2) 1 1 2 2 1).1 (1 * 2) =
      Real.sin (2 * Real.pi * (1 : ℕ) / ((2 - 1 : ℕ) : ℝ)) :=
  ⟨by norm_num, (jacobi_boundary_invariant 2 2 1 1 1 1 (by norm_num) (by norm_num)).1.1⟩

/-! ## Main-loop invariant -/

theorem pidx_succ_ne (k : ℕ) : pidx (k + 1) ≠ pidx k := by
  simp only [pidx, Ne, Fin.mk.injEq]
  omega

theorem pidx_add_two (k : ℕ) : pidx (k + 1 + 1) = pidx k := by
  simp only [pidx, Fin.mk.injEq]
  omega

theorem inv_init {α : Type*} [LinearOrderedRing α] (sqrtF : α → α) (tol : α)
    (normsq : ℕ → α) (csv : Bool) :
    Inv sqrtF tol normsq csv 0 (initState : HostState α) :=
  ⟨rfl, rfl, rfl, rfl, rfl, rfl⟩

theorem inv_step {α : Type*} [LinearOrderedRing α] (sqrtF : α → α) (tol : α)
    (normsq : ℕ → α) (csv : Bool) (k : ℕ) (s : HostState α)
    (hs : Inv sqrtF tol normsq csv k s) :
    Inv sqrtF tol normsq csv (k + 1) (step sqrtF tol normsq 1 csv s) := by
  obtain ⟨hiter, hflag, hh, hd, hev, hpr⟩ := hs
  subst hiter
  have hcond : s.iter % 1 = 0 ∨ (¬(csv = true) ∧ s.iter % 100 = 0) :=
    Or.inl (Nat.mod_one s.iter)
  have hne : pidx (s.iter + 1) ≠ pidx s.iter := pidx_succ_ne s.iter
  refine ⟨?_, ?_, ?_, ?_, ?_, ?_⟩
  · simp only [step, monitor, if_pos hcond]
  · simp only [step, monitor, if_pos hcond, flagAt,
      Function.update_noteq (Ne.symm hne), hh]
  · simp only [step, monitor, if_pos hcond, mirror,
      Function.update_noteq hne, Function.update_same, hd, zero_add]
  · simp only [step, monitor, if_pos hcond, pidx_add_two, Function.update_same]
  · simp only [step, monitor, if_pos hcond, evalList,
      Function.update_noteq (Ne.symm hne), hh, hev]
  · simp only [step, monitor, if_pos hcond, printList,
      Function.update_noteq (Ne.symm hne), hh, hpr]
    by_cases hc : (¬(csv = true) ∧ s.iter % 100 = 0)
    · rw [if_pos hc, if_pos hc]
    · rw [if_neg hc, if_neg hc, List.append_nil]

/-- Running the loop from a state satisfying the invariant at `k` lands
in the invariant at some `N ≥ k`, having executed exactly the iterations
whose entry flag was set and whose index was below `iter_max`. -/
theorem runAux_spec {α : Type*} [LinearOrderedRing α] (sqrtF : α → α) (tol : α)
    (normsq : ℕ → α) (csv : Bool) (iter_max : ℕ) :
    ∀ fuel k s, Inv sqrtF tol normsq csv k s → iter_max ≤ k + fuel →
      ∃ N, k ≤ N ∧
        Inv sqrtF tol normsq csv N (runAux sqrtF tol normsq 1 csv iter_max fuel s) ∧
        (∀ j, k ≤ j → j < N → flagAt sqrtF tol normsq j = true ∧ j < iter_max) ∧
        ¬(flagAt sqrtF tol normsq N = true ∧ N < iter_max) := by
  intro fuel
  induction fuel with
  | zero =>
    intro k s hs hle
    refine ⟨k, le_refl k, hs, fun j h1 h2 => absurd h2 (by omega), ?_⟩
    rintro ⟨-, hlt⟩
    omega
  | succ fuel ih =>
    intro k s hs hle
    simp only [runAux]
    by_cases hgo : s.l2_greater = true ∧ s.iter < iter_max
    · rw [if_pos hgo]
      obtain ⟨N, hN1, hN2, hN3, hN4⟩ := ih (k + 1) (step sqrtF tol normsq 1 csv s)
        (inv_step sqrtF tol normsq csv k s hs) (by omega)
      refine ⟨N, by omega, hN2, ?_, hN4⟩
      intro j hj1 hj2
      rcases Nat.eq_or_lt_of_le hj1 with rfl | hlt
      · exact ⟨by rw [← hs.2.1]; exact hgo.1, by rw [← hs.1]; exact hgo.2⟩
      · exact hN3 j (by omega) hj2
    · rw [if_neg hgo]
      refine ⟨k, le_refl k, hs, fun j h1 h2 => absurd h2 (by omega), ?_⟩
      intro hcontra
      exact hgo ⟨by rw [hs.2.1]; exact hcontra.1, by rw [hs.1]; exact hcontra.2⟩

theorem mem_evalList {α : Type*} [LinearOrderedRing α] (sqrtF : α → α)
    (normsq : ℕ → α) :
    ∀ N j v, (j, v) ∈ evalList sqrtF normsq N ↔
      (j < N ∧ v = sqrtF (mirror normsq j)) := by
  intro N
  induction N with
  | zero => intro j v; simp [evalList]
  | succ N ih =>
    intro j v
    simp only [evalList, List.mem_append, List.mem_singleton, ih, Prod.mk.injEq]
    constructor
    · rintro (⟨h1, h2⟩ | ⟨rfl, rfl⟩)
      · exact ⟨by omega, h2⟩
      · exact ⟨by omega, rfl⟩
    · rintro ⟨h1, rfl⟩
      rcases Nat.lt_or_ge j N with h | h
      · exact Or.inl ⟨h, rfl⟩
      · exact Or.inr ⟨by omega, by rw [show j = N by omega]⟩

theorem mem_printList {α : Type*} [LinearOrderedRing α] (sqrtF : α → α)
    (normsq : ℕ → α) (csv : Bool) :
    ∀ N j v, (j, v) ∈ printList sqrtF normsq csv N ↔
      (j < N ∧ v = sqrtF (mirror normsq j) ∧ ¬(csv = true) ∧ j % 100 = 0) := by
  intro N
  induction N with
  | zero => intro j v; simp [printList]
  | succ N ih =>
    intro j v
    simp only [printList, List.mem_append, ih]
    by_cases hc : (¬(csv = true) ∧ N % 100 = 0)
    · rw [if_pos hc]
      simp only [List.mem_singleton, Prod.mk.injEq]
      constructor
      · rintro (⟨h1, h2, h3, h4⟩ | ⟨rfl, rfl⟩)
        · exact ⟨by omega, h2, h3, h4⟩
        · exact ⟨by omega, rfl, hc.1, hc.2⟩
      · rintro ⟨h1, rfl, h3, h4⟩
        rcases Nat.lt_or_ge j N with h | h
        · exact Or.inl ⟨h, rfl, h3, h4⟩
        · exact Or.inr ⟨by omega, by rw [show j = N by omega]⟩
    · rw [if_neg hc]
      simp only [List.not_mem_nil, or_false]
      constructor
      · rintro ⟨h1, h2, h3, h4⟩
        exact ⟨by omega, h2, h3, h4⟩
      · rintro ⟨h1, rfl, h3, h4⟩
        have hjN : j ≠ N := by
          rintro rfl
          exact hc ⟨h3, h4⟩
        exact ⟨by omega, rfl, h3, h4⟩

theorem evalList_ne_nil {α : Type*} [LinearOrderedRing α] (sqrtF : α → α)
    (normsq : ℕ → α) :
    ∀ N, 1 ≤ N → evalList sqrtF normsq N ≠ [] := by
  intro N
  cases N with
  | zero => intro h; exact absurd h (by omega)
  | succ M =>
    intro _
    show evalList sqrtF normsq M ++ _ ≠ []
    simp

theorem evalList_head {α : Type*} [LinearOrderedRing α] (sqrtF : α → α)
    (normsq : ℕ → α) :
    ∀ N, 1 ≤ N →
      (evalList sqrtF normsq N).head? = some (0, sqrtF (mirror normsq 0)) := by
  intro N
  induction N with
  | zero => intro h; exact absurd h (by omega)
  | succ N ih =>
    intro _
    cases N with
    | zero => rfl
    | succ M =>
      show (evalList sqrtF normsq (M + 1) ++ _).head? = _
      rw [List.head?_append_of_ne_nil _ (evalList_ne_nil sqrtF normsq (M + 1) (by omega))]
      exact ih (by omega)

/-- C6: the loop terminates exactly when the evaluated norm is at most
the tolerance or the iteration count reaches `iter_max`: the final
iteration count never exceeds `iter_max`; if it is below `iter_max` the
last evaluated norm was `≤ tol`; every earlier evaluation exceeded
`tol`; each check at iteration `j` evaluates `sqrt` of the mirror value;
and for `j ≥ 1` that mirror value is iteration `j-1`'s residual sum —
the norm is lagged by one iteration. -/
theorem jacobi_loop_termination {α : Type*} [LinearOrderedRing α]
    (sqrtF : α → α) (tol : α) (normsq : ℕ → α) (csv : Bool) (iter_max : ℕ) :
    (runLoop sqrtF tol normsq 1 csv iter_max).iter ≤ iter_max ∧
    ((runLoop sqrtF tol normsq 1 csv iter_max).iter < iter_max →
      1 ≤ (runLoop sqrtF tol normsq 1 csv iter_max).iter ∧
      ¬(tol < sqrtF (mirror normsq
          ((runLoop sqrtF tol normsq 1 csv iter_max).iter - 1)))) ∧
    (∀ j, j + 1 < (runLoop sqrtF tol normsq 1 csv iter_max).iter →
      tol < sqrtF (mirror normsq j)) ∧
    (∀ j v, (j, v) ∈ (runLoop sqrtF tol normsq 1 csv iter_max).evals →
      v = sqrtF (mirror normsq j) ∧
        j < (runLoop sqrtF tol normsq 1 csv iter_max).iter) ∧
    (∀ j, 1 ≤ j → mirror normsq j = normsq (j - 1)) := by
  obtain ⟨N, hN0, hInv, hrun, hstop⟩ :=
    runAux_spec sqrtF tol normsq csv iter_max iter_max 0 initState
      (inv_init sqrtF tol normsq csv) (by omega)
  simp only [runLoop]
  refine ⟨?_, ?_, ?_, ?_, ?_⟩
  · rw [hInv.1]
    rcases Nat.eq_zero_or_pos N with rfl | hp
    · omega
    · have := (hrun (N - 1) (by omega) (by omega)).2
      omega
  · rw [hInv.1]
    intro hlt
    have hflagN : flagAt sqrtF tol normsq N ≠ true := fun h => hstop ⟨h, hlt⟩
    have hN1 : 1 ≤ N := by
      by_contra h0
      have hN : N = 0 := by omega
      subst hN
      exact hflagN rfl
    refine ⟨hN1, ?_⟩
    obtain ⟨M, rfl⟩ : ∃ M, N = M + 1 := ⟨N - 1, by omega⟩
    intro hcon
    apply hflagN
    simp only [Nat.add_sub_cancel] at hcon
    show decide (tol < sqrtF (mirror normsq M)) = true
    exact decide_eq_true hcon
  · intro j hj
    rw [hInv.1] at hj
    have hf := (hrun (j + 1) (by omega) hj).1
    have : decide (tol < sqrtF (mirror normsq j)) = true := hf
    exact of_decide_eq_true this
  · intro j v hm
    rw [hInv.2.2.2.2.1] at hm
    rw [hInv.1]
    have hmm := (mem_evalList sqrtF normsq N j v).mp hm
    exact ⟨hmm.2, hmm.1⟩
  · intro j hj
    obtain ⟨M, rfl⟩ : ∃ M, j = M + 1 := ⟨j - 1, by omega⟩
    rfl

/-- Witness for C6: a run that exhausts `iter_max = 2` with residual sums
equal to `4`. -/
theorem jacobi_loop_termination_witness :
    (runLoop (id : ℤ → ℤ) 0 (fun _ => 4) 1 false 2).iter ≤ 2 ∧
    (0 : ℤ) < id (mirror (fun _ => (4 : ℤ)) 0) :=
  ⟨(jacobi_loop_termination (id : ℤ → ℤ) 0 (fun _ => 4) false 2).1,
   (jacobi_loop_termination (id : ℤ → ℤ) 0 (fun _ => 4) false 2).2.2.1 0 (by decide)⟩

/-- C7: the Convergence Monitor, applied to a copy-stable slot `prev`,
returns `sqrt` of that slot's host-mirror scalar together with a
continue flag equal to `sqrt(value) > tol`; it then zeroes the consumed
scalar in the host mirror, the device accumulator and `l2_norms`; the
other slot, the iteration counter and the evaluation trace frame are
untouched except for the recorded evaluation and the optional progress
report. -/
theorem convergence_monitor_contract {α : Type*} [LinearOrderedRing α]
    (sqrtF : α → α) (tol : α) (csv : Bool) (prev : Fin 2) (iterN : ℕ)
    (s : HostState α) :
    (monitor sqrtF tol csv prev iterN s).1 = sqrtF (s.h prev) ∧
    ((monitor sqrtF tol csv prev iterN s).2.1 = true ↔ tol < sqrtF (s.h prev)) ∧
    (monitor sqrtF tol csv prev iterN s).2.2.h prev = 0 ∧
    (monitor sqrtF tol csv prev iterN s).2.2.d prev = 0 ∧
    (monitor sqrtF tol csv prev iterN s).2.2.l2 prev = 0 ∧
    (∀ q, q ≠ prev →
      (monitor sqrtF tol csv prev iterN s).2.2.h q = s.h q ∧
      (monitor sqrtF tol csv prev iterN s).2.2.d q = s.d q ∧
      (monitor sqrtF tol csv prev iterN s).2.2.l2 q = s.l2 q) ∧
    (monitor sqrtF tol csv prev iterN s).2.2.iter = s.iter ∧
    (monitor sqrtF tol csv prev iterN s).2.2.evals =
      s.evals ++ [(iterN, sqrtF (s.h prev))] ∧
    ((monitor sqrtF tol csv prev iterN s).2.2.printed =
        s.printed ++ [(iterN, sqrtF (s.h prev))] ∨
      (monitor sqrtF tol csv prev iterN s).2.2.printed = s.printed) := by
  refine ⟨rfl, ?_, ?_, ?_, ?_, ?_, rfl, rfl, ?_⟩
  · simp [monitor]
  · simp [monitor]
  · simp [monitor]
  · simp [monitor]
  · intro q hq
    simp [monitor, Function.update_noteq hq]
  · simp only [monitor]
    by_cases hc : (¬(csv = true) ∧ iterN % 100 = 0)
    · exact Or.inl (by rw [if_pos hc])
    · exact Or.inr (by rw [if_neg hc])

/-- Witness for C7 at a concrete state: slot 0 is consumed and zeroed,
slot 1 keeps its value. -/
theorem convergence_monitor_contract_witness :
    (monitor (id : ℤ → ℤ) 0 false 0 5 initState).2.2.h 0 = 0 ∧
    (monitor (id : ℤ → ℤ) 0 false 0 5 initState).2.2.h 1 =
      (initState : HostState ℤ).h 1 :=
  ⟨(convergence_monitor_contract (id : ℤ → ℤ) 0 false 0 5 initState).2.2.1,
   ((convergence_monitor_contract (id : ℤ → ℤ) 0 false 0 5 initState).2.2.2.2.2.1
      1 (by decide)).1⟩

/-- Counterexample to C9 as stated: with `iter_max = 2`, csv off and
residual sums equal to `2`, the check at iteration `1` evaluates the
lagged norm `2` (it is in the evaluation trace) but nothing is printed
for iteration `1`: the `printf` of line 246 fires only when
`iter % 100 == 0`. -/
theorem progress_report_counterexample :
    (1, (2 : ℤ)) ∈ (runLoop (id : ℤ → ℤ) 0 (fun _ => 2) 1 false 2).evals ∧
    ¬((1, (2 : ℤ)) ∈ (runLoop (id : ℤ → ℤ) 0 (fun _ => 2) 1 false 2).printed) := by
  decide

/-- C9 (amended): every iteration performs the convergence check
(`nccheck = 1`), but the iteration index and lagged norm are emitted
only when `iter % 100 == 0` and csv mode is off; the printed trace
contains exactly those evaluation entries. -/
theorem progress_report_cadence {α : Type*} [LinearOrderedRing α]
    (sqrtF : α → α) (tol : α) (normsq : ℕ → α) (csv : Bool) (iter_max : ℕ) :
    ∀ j v, (j, v) ∈ (runLoop sqrtF tol normsq 1 csv iter_max).printed ↔
      ((j, v) ∈ (runLoop sqrtF tol normsq 1 csv iter_max).evals ∧
        ¬(csv = true) ∧ j % 100 = 0) := by
  obtain ⟨N, hN0, hInv, hrun, hstop⟩ :=
    runAux_spec sqrtF tol normsq csv iter_max iter_max 0 initState
      (inv_init sqrtF tol normsq csv) (by omega)
  intro j v
  simp only [runLoop]
  rw [hInv.2.2.2.2.1, hInv.2.2.2.2.2, mem_printList, mem_evalList]
  constructor
  · rintro ⟨h1, h2, h3, h4⟩
    exact ⟨⟨h1, h2⟩, h3, h4⟩
  · rintro ⟨⟨h1, h2⟩, h3, h4⟩
    exact ⟨h1, h2, h3, h4⟩

/-- Witness for the amended C9: iteration `0` is both checked and
reported. -/
theorem progress_report_cadence_witness :
    (0, (1 : ℤ)) ∈ (runLoop (id : ℤ → ℤ) 0 (fun _ => 2) 1 false 2).printed ∧
    ((0, (1 : ℤ)) ∈ (runLoop (id : ℤ → ℤ) 0 (fun _ => 2) 1 false 2).evals ∧
      ¬(false = true) ∧ 0 % 100 = 0) :=
  ⟨by decide,
   (progress_report_cadence (id : ℤ → ℤ) 0 (fun _ => 2) false 2 0 1).mp (by decide)⟩

/-- C10: at iteration `0` the host reads the sentinel `1.0` stored into
both host mirrors at setup (that slot's copy-done marker has never been
recorded), so the first continue decision computes `sqrt(1.0) = 1.0 >
tol` regardless of the grid: for every `iter_max ≥ 1` the loop executes
at least one full iteration, and the first recorded evaluation is
`(0, sqrt 1)` independently of every residual value. -/
theorem sentinel_first_evaluation {α : Type*} [LinearOrderedRing α]
    (sqrtF : α → α) (tol : α) (normsq : ℕ → α) (csv : Bool) (iter_max : ℕ)
    (hs1 : sqrtF 1 = 1) (htol : tol < 1) (hmax : 1 ≤ iter_max) :
    1 ≤ (runLoop sqrtF tol normsq 1 csv iter_max).iter ∧
    (runLoop sqrtF tol normsq 1 csv iter_max).evals.head? = some (0, sqrtF 1) ∧
    mirror normsq 0 = 1 ∧
    flagAt sqrtF tol normsq 1 = true := by
  obtain ⟨N, hN0, hInv, hrun, hstop⟩ :=
    runAux_spec sqrtF tol normsq csv iter_max iter_max 0 initState
      (inv_init sqrtF tol normsq csv) (by omega)
  have hN1 : 1 ≤ N := by
    by_contra h0
    have hN : N = 0 := by omega
    subst hN
    exact hstop ⟨rfl, by omega⟩
  refine ⟨?_, ?_, rfl, ?_⟩
  · simp only [runLoop]
    rw [hInv.1]
    exact hN1
  · simp only [runLoop]
    rw [hInv.2.2.2.2.1, evalList_head sqrtF normsq N hN1]
    rfl
  · show decide (tol < sqrtF (mirror normsq 0)) = true
    rw [show mirror normsq 0 = (1 : α) from rfl, hs1]
    exact decide_eq_true htol

/-- Witness for C10: one-iteration run in csv mode. -/
theorem sentinel_first_evaluation_witness :
    1 ≤ (runLoop (id : ℤ → ℤ) 0 (fun _ => 7) 1 true 1).iter ∧
    (runLoop (id : ℤ → ℤ) 0 (fun _ => 7) 1 true 1).evals.head? = some (0, id (1 : ℤ)) :=
  ⟨(sentinel_first_evaluation (id : ℤ → ℤ) 0 (fun _ => 7) true 1 rfl
      (by norm_num) (by norm_num)).1,
   (sentinel_first_evaluation (id : ℤ → ℤ) 0 (fun _ => 7) true 1 rfl
      (by norm_num) (by norm_num)).2.1⟩

/-- C8: any `nccheck` value other than `1` makes `main` return the
distinguished non-zero status `-1` before performing any device action
(no allocation, no kernel launch); on the normal path (`nccheck = 1`)
the exit status is `0`. -/
theorem nccheck_rejection {α : Type*} [LinearOrderedRing α]
    (sqrtF : α → α) (tol : α) (normsq : ℕ → α) (iter_max : ℕ)
    (nccheck : ℤ) (csv : Bool) (hnc : nccheck ≠ 1) :
    main_model sqrtF tol normsq iter_max nccheck csv = (-1, []) ∧
    (main_model sqrtF tol normsq iter_max nccheck csv).1 ≠ 0 ∧
    (main_model sqrtF tol normsq iter_max 1 csv).1 = 0 := by
  have h1 : main_model sqrtF tol normsq iter_max nccheck csv = (-1, []) := by
    simp only [main_model, if_pos hnc]
  refine ⟨h1, ?_, ?_⟩
  · rw [h1]
    norm_num
  · simp [main_model]

/-- Witness for C8 at `nccheck = 2`. -/
theorem nccheck_rejection_witness :
    main_model (id : ℤ → ℤ) 0 (fun _ => 0) 5 2 false = (-1, []) ∧
    (main_model (id : ℤ → ℤ) 0 (fun _ => 0) 5 1 false).1 = 0 :=
  ⟨(nccheck_rejection (id : ℤ → ℤ) 0 (fun _ => 0) 5 2 false (by decide)).1,
   (nccheck_rejection (id : ℤ → ℤ) 0 (fun _ => 0) 5 2 false (by decide)).2.2⟩

end JacobiHip
